import Mathlib

/-!
Verification of the core of the kat save editor (`kat_edit.py` together with
the C# helper types it compiles in memory): the literal-to-typed-value
coercer, the .NET integer narrowing, the serialization binder policy, the
capture node round-trip hooks, the JSON projection with its visited set, the
path-expression parser, and the path mutator.

The object graph handed over by the external serialization engine is
modelled by an explicit heap: non-scalar objects live in a list, and a
`Val.ref o` is a reference (by reference identity) to heap slot `o`.
-/

namespace KatEdit

/-- Engine-side values as this system observes them through pythonnet:
Python scalars (into which pythonnet unwraps .NET primitives), boxed
scalar-like .NET values (`Decimal`, `DateTime`, `Guid`), and references to
heap objects.  `Val.null` doubles as Python `None`: the source cannot tell
the two apart either (a missing dictionary key and a stored null both come
back as `None`). -/
inductive Val : Type
  | null
  | bool (b : Bool)
  | int (n : ℤ)
  | float (q : ℚ)
  | str (s : String)
  | decimal (q : ℚ)
  | datetime (iso : String)
  | guid (g : String)
  | ref (o : ℕ)
  deriving DecidableEq

/-- Non-scalar heap objects: the capture node (`KatRoundtrip.Node`), native
dictionaries, native lists/arrays, byte arrays, and otherwise-unhandled
objects that fall to the reflection branch of the projector. -/
inductive HeapObj : Type
  | node (fullTypeName assemblyName : String) (data : List (String × Val))
  | dict (entries : List (String × Val))
  | list (elems : List Val)
  | bytes (bs : List ℕ)
  | fallbackObj (tname : String) (fields : List (String × Val))
  deriving DecidableEq

/-- The Python-level value produced by `parse_value_literal`. -/
inductive PyVal : Type
  | none
  | bool (b : Bool)
  | int (n : ℤ)
  | float (q : ℚ)
  | str (s : String)
  deriving DecidableEq

/-- The .NET primitive produced by `_to_net`. -/
inductive NetVal : Type
  | null
  | boolean (b : Bool)
  | int32 (n : ℤ)
  | int64 (n : ℤ)
  | decimal (q : ℚ)
  | double (q : ℚ)
  | string (s : String)
  deriving DecidableEq

/-- Numeric value of a digit list (most significant first). -/
def digitsVal (ds : List Char) : ℕ :=
  ds.foldl (fun a c => 10 * a + (c.toNat - 48)) 0

/-- ASCII lower-casing of one character (`str.lower()` on the tokens at
hand, which are ASCII). -/
def charLower (c : Char) : Char :=
  if 65 ≤ c.toNat ∧ c.toNat ≤ 90 then Char.ofNat (c.toNat + 32) else c

/-- ASCII lower-casing of a string, character by character. -/
def strLower (s : String) : String := String.mk (s.toList.map charLower)

/-- Python `int(s)`, restricted to the ASCII token forms relevant to `--set`
literals: an optional sign followed by one or more decimal digits. -/
def pyInt (s : String) : Option ℤ :=
  match s.toList with
  | [] => Option.none
  | '-' :: ds =>
      if ds ≠ [] ∧ ds.all Char.isDigit then some (-(digitsVal ds : ℤ)) else Option.none
  | '+' :: ds =>
      if ds ≠ [] ∧ ds.all Char.isDigit then some ((digitsVal ds : ℤ)) else Option.none
  | ds =>
      if ds.all Char.isDigit then some ((digitsVal ds : ℤ)) else Option.none

/-- Exponent part of a Python float literal, applied to mantissa `m`. -/
def pyFloatExp (m : ℚ) : List Char → Option ℚ
  | [] => some m
  | 'e' :: rest =>
      (match rest with
       | '-' :: ds =>
           if ds ≠ [] ∧ ds.all Char.isDigit then some (m / 10 ^ digitsVal ds) else Option.none
       | '+' :: ds =>
           if ds ≠ [] ∧ ds.all Char.isDigit then some (m * 10 ^ digitsVal ds) else Option.none
       | ds =>
           if ds ≠ [] ∧ ds.all Char.isDigit then some (m * 10 ^ digitsVal ds) else Option.none)
  | 'E' :: rest =>
      (match rest with
       | '-' :: ds =>
           if ds ≠ [] ∧ ds.all Char.isDigit then some (m / 10 ^ digitsVal ds) else Option.none
       | '+' :: ds =>
           if ds ≠ [] ∧ ds.all Char.isDigit then some (m * 10 ^ digitsVal ds) else Option.none
       | ds =>
           if ds ≠ [] ∧ ds.all Char.isDigit then some (m * 10 ^ digitsVal ds) else Option.none)
  | _ => Option.none

/-- Unsigned part of a Python float literal: digits, optional point and
fraction digits, optional exponent.  The value is kept exact in `ℚ`
(the IEEE rounding of CPython's `float` is not modelled; no claim depends
on it). -/
def pyFloatCore (cs : List Char) : Option ℚ :=
  let ip := cs.takeWhile Char.isDigit
  let rest := cs.dropWhile Char.isDigit
  match rest with
  | '.' :: rest2 =>
      let fp := rest2.takeWhile Char.isDigit
      let rest3 := rest2.dropWhile Char.isDigit
      if ip = [] ∧ fp = [] then Option.none
      else pyFloatExp ((digitsVal ip : ℚ) + (digitsVal fp : ℚ) / (10 : ℚ) ^ fp.length) rest3
  | _ => if ip = [] then Option.none else pyFloatExp ((digitsVal ip : ℚ)) rest

/-- Python `float(s)` on the ASCII numeric token forms (`inf`/`nan` and
underscores are not modelled; they never reach the float branch of
`parse_value_literal` in a well-formed `--set`). -/
def pyFloat (s : String) : Option ℚ :=
  match s.toList with
  | '-' :: cs => (pyFloatCore cs).map Neg.neg
  | '+' :: cs => pyFloatCore cs
  | cs => pyFloatCore cs

/-- `parse_value_literal`: quoted token → string with the quotes stripped;
case-insensitive `true`/`false`/`null`; a leading `0` followed by another
digit keeps the token a string; a token containing `.` or `e`/`E` is parsed
as a float; otherwise as an int; a failed numeric parse falls back to the
token itself as a string. -/
def parse_value_literal (s : String) : PyVal :=
  let cs := s.toList
  if 2 ≤ cs.length ∧ ((cs.head? = some '"' ∧ cs.getLast? = some '"') ∨
                      (cs.head? = some '\'' ∧ cs.getLast? = some '\'')) then
    .str (String.mk ((cs.drop 1).dropLast))
  else
    let sl := strLower s
    if sl = "true" then .bool true
    else if sl = "false" then .bool false
    else if sl = "null" then .none
    else if (match cs with | '0' :: c :: _ => c.isDigit | _ => false) then .str s
    else if cs.contains '.' ∨ sl.toList.contains 'e' then
      match pyFloat s with
      | some q => .float q
      | Option.none => .str s
    else
      match pyInt s with
      | some n => .int n
      | Option.none => .str s

/-- `_to_net`: convert a Python primitive to a .NET primitive.  An integer
picks `Int32` first, falls back to `Int64`, else `Decimal`. -/
def _to_net : PyVal → NetVal
  | .none => .null
  | .bool b => .boolean b
  | .int n =>
      if -2147483648 ≤ n ∧ n ≤ 2147483647 then .int32 n
      else if -9223372036854775808 ≤ n ∧ n ≤ 9223372036854775807 then .int64 n
      else .decimal (n : ℚ)
  | .float q => .double q
  | .str s => .string s

/-! ## The serialization binder (`KatRoundtrip.RedirectBinder.BindToType`) -/

/-- Outcome of `BindToType`: redirect to `KatRoundtrip.Node`, resolve to a
native type, or fall back to `typeof(object)`. -/
inductive BindResult (τ : Type) : Type
  | node
  | native (t : τ)
  | obj
  deriving DecidableEq

/-- C# `String.StartsWith`, on the characters of the strings. -/
def strStartsWith (s p : String) : Bool := p.toList.isPrefixOf s.toList

/-- C# `String.IndexOf(sub, StringComparison.OrdinalIgnoreCase) >= 0`. -/
def strContainsCI (s sub : String) : Bool :=
  decide ((strLower sub).toList <:+: (strLower s).toList)

/-- The reserved application namespace prefix for save-data types. -/
def savingNs : String := "Everbyte.TextGame.Saving"

/-- `RedirectBinder.BindToType`.  Native resolution (`Type.GetType`) is an
external oracle and is passed in as `getType`; a C# null string is modelled
by the empty string (`String.IsNullOrEmpty` collapses the two). -/
def BindToType {τ : Type} (getType : String → Option τ) (assemblyName typeName : String) :
    BindResult τ :=
  if typeName ≠ "" ∧ strStartsWith typeName savingNs then .node
  else if assemblyName ≠ "" ∧ strStartsWith assemblyName savingNs then .node
  else
    let full := if assemblyName = "" then typeName else typeName ++ ", " ++ assemblyName
    match getType full with
    | some t => .native t
    | Option.none =>
        if typeName ≠ "" ∧ strContainsCI typeName "Everbyte" then .node
        else .obj

/-! ## The capture node (`KatRoundtrip.Node`) -/

/-- The slice of `SerializationInfo` the Node hooks touch: the type header
(`FullTypeName`, `AssemblyName`) and the ordered `(name, value)` entries. -/
structure SerializationInfo where
  fullTypeName : String
  assemblyName : String
  entries : List (String × Val)
  deriving DecidableEq

/-- The `KatRoundtrip.Node` state: captured identity plus the ordered
field map. -/
structure Node where
  fullTypeName : String
  assemblyName : String
  data : List (String × Val)
  deriving DecidableEq

/-- Dictionary indexer-set semantics (`d[k] = v`): replace in place if the
key exists (keeping its slot), else append.  Used by `Dictionary<string,T>`
and Python dicts alike. -/
def dictUpd {α : Type} : List (String × α) → String → α → List (String × α)
  | [], k, v => [(k, v)]
  | (k', v') :: rest, k, v =>
      if k' = k then (k, v) :: rest else (k', v') :: dictUpd rest k v

/-- A run of indexer-sets (`for e in py: d[e.key] = e.val`), i.e. Python's
`d.update(py)` and the `Data[e.Name] = e.Value` decode loop. -/
def updateEntries {α : Type} (d py : List (String × α)) : List (String × α) :=
  py.foldl (fun d e => dictUpd d e.1 e.2) d

/-- The deserialization constructor `Node(SerializationInfo, ...)`:
identity verbatim, `Data` filled by an indexer-set per entry. -/
def Node.fromSerializationInfo (info : SerializationInfo) : Node :=
  { fullTypeName := info.fullTypeName
    assemblyName := info.assemblyName
    data := updateEntries [] info.entries }

/-- `Node.GetObjectData`: overwrite the outgoing type header with the
captured identity only when it is non-empty, then `AddValue` every captured
field in stored order. -/
def Node.GetObjectData (n : Node) (info : SerializationInfo) : SerializationInfo :=
  let info1 := if n.fullTypeName ≠ "" then { info with fullTypeName := n.fullTypeName } else info
  let info2 :=
    if n.assemblyName ≠ "" then { info1 with assemblyName := n.assemblyName } else info1
  { info2 with entries := info2.entries ++ n.data }

/-! ## The JSON projector (`to_jsonable`) -/

/-- The JSON tree produced for display (Python `json.dump` input). -/
inductive Json : Type
  | null
  | bool (b : Bool)
  | int (n : ℤ)
  | float (q : ℚ)
  | str (s : String)
  | arr (elems : List Json)
  | obj (entries : List (String × Json))

/-- Projection of the scalar and boxed scalar-like values: Python scalars
pass through unchanged, `DateTime → ToString("o")`, `Decimal → float`,
`Guid → str`.  `Option.none` on a reference, which is not a scalar.
(The boxed values go through the visited set in the source, but each access
yields a fresh box, so they are never found there; short-circuiting them
here is observationally the same.) -/
def scalarJson : Val → Option Json
  | .null => some .null
  | .bool b => some (.bool b)
  | .int n => some (.int n)
  | .float q => some (.float q)
  | .str s => some (.str s)
  | .decimal q => some (.float q)
  | .datetime iso => some (.str iso)
  | .guid g => some (.str g)
  | .ref _ => Option.none

/-- The two reserved provenance keys emitted for a capture node. -/
def reservedEntries (ft asm : String) : List (String × Json) :=
  [("$original_dotnet_type", Json.str ft), ("$original_assembly", Json.str asm)]

/-- Project the values of an ordered field list, threading the visited set
left to right (`go` is the projector one fuel level down). -/
def stepEntries (go : List ℕ → Val → Option (Json × List ℕ)) :
    List ℕ → List (String × Val) → Option (List (String × Json) × List ℕ)
  | seen, [] => some ([], seen)
  | seen, (k, v) :: rest =>
      match go seen v with
      | Option.none => Option.none
      | some (j, s1) =>
          match stepEntries go s1 rest with
          | Option.none => Option.none
          | some (js, s2) => some ((k, j) :: js, s2)

/-- Project the elements of a sequence, threading the visited set. -/
def stepList (go : List ℕ → Val → Option (Json × List ℕ)) :
    List ℕ → List Val → Option (List Json × List ℕ)
  | seen, [] => some ([], seen)
  | seen, v :: rest =>
      match go seen v with
      | Option.none => Option.none
      | some (j, s1) =>
          match stepList go s1 rest with
          | Option.none => Option.none
          | some (js, s2) => some (j :: js, s2)

/-- One unfolding of the `conv` recursion of `to_jsonable`: scalars pass
through; a reference already in the visited set yields `null`; otherwise
the reference is marked visited first and its object is dispatched — capture
node (reserved keys `d` updated with the projected field dict `py`, exactly
`d.update(py)`), byte array, dictionary, sequence, or the reflection
fallback with its `$type` key.  Children are projected by `go`.  A dangling
reference (no heap object) cannot be produced by the engine; it projects to
`null`. -/
def convFStep (heap : List HeapObj) (go : List ℕ → Val → Option (Json × List ℕ))
    (seen : List ℕ) (v : Val) : Option (Json × List ℕ) :=
  match v with
  | .ref o =>
      if o ∈ seen then some (.null, seen)
      else
        match heap.get? o with
        | Option.none => some (.null, o :: seen)
        | some (.node ft asm data) =>
            match stepEntries go (o :: seen) data with
            | Option.none => Option.none
            | some (py, s1) =>
                some (.obj (updateEntries (reservedEntries ft asm) (updateEntries [] py)), s1)
        | some (.dict entries) =>
            match stepEntries go (o :: seen) entries with
            | Option.none => Option.none
            | some (es, s1) => some (.obj (updateEntries [] es), s1)
        | some (.list elems) =>
            match stepList go (o :: seen) elems with
            | Option.none => Option.none
            | some (js, s1) => some (.arr js, s1)
        | some (.bytes bs) => some (.arr (bs.map fun b => .int (b : ℤ)), o :: seen)
        | some (.fallbackObj tname fields) =>
            match stepEntries go (o :: seen) fields with
            | Option.none => Option.none
            | some (es, s1) =>
                some (.obj (updateEntries [("$type", Json.str tname)] es), s1)
  | v => (scalarJson v).map (fun j => (j, seen))

/-- Fuel exhaustion: only a first visit to a reference needs another level
of recursion. -/
def convFZero (seen : List ℕ) (v : Val) : Option (Json × List ℕ) :=
  match v with
  | .ref o => if o ∈ seen then some (.null, seen) else Option.none
  | v => (scalarJson v).map (fun j => (j, seen))

/-- The fuel-indexed projector.  The source recursion is unbounded; fuel
only bounds the recursion depth, and `convF_isSome` below shows that
`heap.length + 1` fuel always suffices, which is the termination argument
for the source. -/
def convF (heap : List HeapObj) (fuel : ℕ) : List ℕ → Val → Option (Json × List ℕ) :=
  Nat.rec convFZero (fun _ ih => convFStep heap ih) fuel

/-- `to_jsonable`: project a root value with an initially empty visited
set and enough fuel for every object in the heap. -/
def to_jsonable (heap : List HeapObj) (root : Val) : Option Json :=
  (convF heap (heap.length + 1) [] root).map Prod.fst

/-- The number of heap objects not yet visited: the measure that shrinks at
every first visit. -/
def unseenCount (heap : List HeapObj) (seen : List ℕ) : ℕ :=
  ((List.range heap.length).filter (fun o => decide (o ∉ seen))).length

/-! ## The path parser (`_path_token` / `parse_path`) -/

/-- A path step: `.field` or `[index]`. -/
inductive Tok : Type
  | key (k : String)
  | idx (i : ℕ)
  deriving DecidableEq

/-- `[A-Za-z_]` (ASCII, as the paths at hand are). -/
def isIdentStart (c : Char) : Bool := c.isAlpha || c = '_'

/-- `\w` = `[A-Za-z0-9_]` (ASCII, as the paths at hand are). -/
def isWordChar (c : Char) : Bool := c.isAlphanum || c = '_'

/-- Consume an identifier at the front of the input, if any. -/
def takeIdent : List Char → Option (String × List Char)
  | [] => Option.none
  | c :: rest =>
      if isIdentStart c then
        some (String.mk (c :: rest.takeWhile isWordChar), rest.dropWhile isWordChar)
      else Option.none

/-- Consume a digit run at the front of the input, if any. -/
def takeIndex (cs : List Char) : Option (ℕ × List Char) :=
  if cs.takeWhile Char.isDigit = [] then Option.none
  else some (digitsVal (cs.takeWhile Char.isDigit), cs.dropWhile Char.isDigit)

/-- One match of the `_path_token` regex at the current position.  The
three alternatives are `\.identifier`, `\[digits\]` and `^identifier`;
the `^` anchor makes the bare-identifier alternative available only at the
very start of the string (`atStart`), while the other two alternatives are
unanchored. -/
def matchTok (atStart : Bool) (cs : List Char) : Option (Tok × List Char) :=
  match cs with
  | '.' :: rest => (takeIdent rest).map (fun p => (Tok.key p.1, p.2))
  | '[' :: rest =>
      (match takeIndex rest with
       | some (n, ']' :: r) => some (Tok.idx n, r)
       | _ => Option.none)
  | _ => if atStart then (takeIdent cs).map (fun p => (Tok.key p.1, p.2)) else Option.none

/-- The `parse_path` scan loop.  Fuel only bounds the number of tokens and
is harmless at `length + 1`: every token consumes at least one character. -/
def parsePathAux : ℕ → Bool → List Char → Except String (List Tok)
  | _, _, [] => Except.ok []
  | 0, _, cs => Except.error (String.mk cs)
  | fuel + 1, atStart, cs =>
      match matchTok atStart cs with
      | Option.none => Except.error (String.mk cs)
      | some (t, r) =>
          match parsePathAux fuel false r with
          | Except.error e => Except.error e
          | Except.ok ts => Except.ok (t :: ts)

/-- `parse_path`: ordered token list, or the unparsed remainder (the
payload of the `ValueError("Invalid path near: ...")`). -/
def parse_path (s : String) : Except String (List Tok) :=
  parsePathAux (s.length + 1) true s.toList

/-! ## The path mutator (`traverse_for_set` / `set_value`) -/

/-- The loop state `(parent, last, cur)` returned by `traverse_for_set`.
`Val.null` stands for Python `None` in `parent` and `cur`. -/
structure TravOut where
  parent : Val
  last : Option Tok
  cur : Val
  deriving DecidableEq

/-- `get_node_data_if_any`: the `Data` field map when the value references
a `KatRoundtrip.Node`, else nothing. -/
def get_node_data_if_any (heap : List HeapObj) : Val → Option (List (String × Val))
  | .ref o =>
      (match heap.get? o with
       | some (.node _ _ data) => some data
       | _ => Option.none)
  | _ => Option.none

/-- `dict_get`: dictionary probe that yields Python `None` (here
`Val.null`) when the key is absent. -/
def dict_get (entries : List (String × Val)) (key : String) : Val :=
  (List.lookup key entries).getD .null

/-- The `traverse_for_set` loop state transition.  Each iteration sets
`parent := cur` and `last := tk` first, auto-descends into `Node.Data`,
then applies the step; a step that cannot be applied returns
`(parent, last, None)` immediately, leaving any remaining tokens
unconsumed — exactly the early `return` in the source.  A key step on a
missing key does not fail here (it yields `None` and the loop continues);
an index step succeeds on lists, byte arrays, and — because Python strings
are indexable — string scalars. -/
def traverseLoop (heap : List HeapObj) : Val → Val → Option Tok → List Tok → TravOut
  | cur, parent, last, [] => ⟨parent, last, cur⟩
  | cur, _, _, .key k :: rest =>
      (match get_node_data_if_any heap cur with
       | some data => traverseLoop heap (dict_get data k) cur (some (.key k)) rest
       | Option.none =>
           match cur with
           | .ref o =>
               (match heap.get? o with
                | some (.dict entries) =>
                    traverseLoop heap (dict_get entries k) cur (some (.key k)) rest
                | _ => ⟨cur, some (.key k), .null⟩)
           | _ => ⟨cur, some (.key k), .null⟩)
  | cur, _, _, .idx i :: rest =>
      (match get_node_data_if_any heap cur with
       | some _ => ⟨cur, some (.idx i), .null⟩
       | Option.none =>
           match cur with
           | .ref o =>
               (match heap.get? o with
                | some (.list elems) =>
                    (match elems.get? i with
                     | some v => traverseLoop heap v cur (some (.idx i)) rest
                     | Option.none => ⟨cur, some (.idx i), .null⟩)
                | some (.bytes bs) =>
                    (match bs.get? i with
                     | some b => traverseLoop heap (.int (b : ℤ)) cur (some (.idx i)) rest
                     | Option.none => ⟨cur, some (.idx i), .null⟩)
                | _ => ⟨cur, some (.idx i), .null⟩)
           | .str s =>
               (match s.toList.get? i with
                | some c => traverseLoop heap (.str (String.mk [c])) cur (some (.idx i)) rest
                | Option.none => ⟨cur, some (.idx i), .null⟩)
           | _ => ⟨cur, some (.idx i), .null⟩)

/-- `traverse_for_set heap root tokens`: walk the tokens from the root,
returning the final `(parent, last, cur)`; `parent`/`last` start as
Python `None`. -/
def traverse_for_set (heap : List HeapObj) (root : Val) (tokens : List Tok) : TravOut :=
  traverseLoop heap root .null Option.none tokens

/-- The errors `set_value` (with `parse_path`) can raise, one constructor
per `raise` site, carrying what the message interpolates:
`ValueError(f"Invalid path near: {remainder}")`,
`ValueError(f"Could not resolve path: {path}")`,
`TypeError(f"Cannot assign key on {type} at {path}")`,
`TypeError(f"Cannot assign index {i}: {e}")`. -/
inductive SetErr : Type
  | invalidPath (remainder : String)
  | couldNotResolve (path : String)
  | cannotAssignKey (path : String)
  | cannotAssignIndex (i : ℕ)
  deriving DecidableEq

/-- Store a .NET primitive back into the graph (the value as the graph
model sees it afterwards; pythonnet unwraps the numeric boxes again on the
next read). -/
def valOfNet : NetVal → Val
  | .null => .null
  | .boolean b => .bool b
  | .int32 n => .int n
  | .int64 n => .int n
  | .decimal q => .decimal q
  | .double q => .float q
  | .string s => .str s

/-- The terminal store of `set_value` (its tail after the traversal): the
target is `parent` — its `Data` map when `parent` is a capture node — and
`tk` is the last token.  A key store into a dictionary (native or
`Node.Data`) inserts when the key is absent: that is the .NET indexer-set
semantics.  An index store into anything but a list throws; so does an
out-of-range index (elementwise stores into byte arrays, which raise a
conversion error in pythonnet, are modelled as rejected as well).  The
.NET indexer either stores or throws before mutating, so every error
returns the untouched heap. -/
def assignAtSlot (heap : List HeapObj) (parent : Val) (tk : Tok) (path_expr : String)
    (net_val : Val) : List HeapObj × Option SetErr :=
  match tk with
  | .key k =>
      (match parent with
       | .ref o =>
           (match heap.get? o with
            | some (.node ft asm data) =>
                (heap.set o (.node ft asm (dictUpd data k net_val)), Option.none)
            | some (.dict entries) =>
                (heap.set o (.dict (dictUpd entries k net_val)), Option.none)
            | _ => (heap, some (.cannotAssignKey path_expr)))
       | _ => (heap, some (.cannotAssignKey path_expr)))
  | .idx i =>
      (match parent with
       | .ref o =>
           (match heap.get? o with
            | some (.list elems) =>
                if i < elems.length then
                  (heap.set o (.list (elems.set i net_val)), Option.none)
                else (heap, some (.cannotAssignIndex i))
            | _ => (heap, some (.cannotAssignIndex i)))
       | _ => (heap, some (.cannotAssignIndex i)))

/-- `set_value heap root path value`: parse the path, traverse, coerce the
literal, and assign into the parent container; the source mutates nothing
before the single terminal store. -/
def set_value (heap : List HeapObj) (root : Val) (path_expr value_literal : String) :
    List HeapObj × Option SetErr :=
  match parse_path path_expr with
  | .error rem => (heap, some (.invalidPath rem))
  | .ok tokens =>
      match traverse_for_set heap root tokens with
      | ⟨parent, lastTok, _cur⟩ =>
          match lastTok with
          | Option.none => (heap, some (.couldNotResolve path_expr))
          | some tk =>
              if parent = .null then (heap, some (.couldNotResolve path_expr))
              else
                assignAtSlot heap parent tk path_expr
                  (valOfNet (_to_net (parse_value_literal value_literal)))

/-! ## Association-list lemmas shared by the round-trip, projector and
mutator proofs -/

theorem lookup_cons_self {α : Type} (k : String) (v : α) (l : List (String × α)) :
    List.lookup k ((k, v) :: l) = some v := by
  simp [List.lookup]

theorem lookup_cons_ne {α : Type} {k k' : String} (v : α) (l : List (String × α))
    (h : k ≠ k') : List.lookup k ((k', v) :: l) = List.lookup k l := by
  simp [List.lookup, beq_eq_false_iff_ne.mpr h]

theorem dictUpd_of_lookup_none {α : Type} {l : List (String × α)} {k : String} (v : α)
    (h : List.lookup k l = Option.none) : dictUpd l k v = l ++ [(k, v)] := by
  induction l with
  | nil => rfl
  | cons e rest ih =>
      obtain ⟨k', v'⟩ := e
      by_cases hk : k' = k
      · subst hk
        rw [lookup_cons_self] at h
        exact absurd h (by simp)
      · rw [lookup_cons_ne v' rest (fun he => hk he.symm)] at h
        simp [dictUpd, hk, ih h]

theorem lookup_append_of_none {α : Type} {l1 : List (String × α)} (l2 : List (String × α))
    (k : String) (h : List.lookup k l1 = Option.none) :
    List.lookup k (l1 ++ l2) = List.lookup k l2 := by
  induction l1 with
  | nil => rfl
  | cons e rest ih =>
      obtain ⟨k', v'⟩ := e
      by_cases hk : k = k'
      · subst hk
        rw [lookup_cons_self] at h
        exact absurd h (by simp)
      · rw [lookup_cons_ne v' rest hk] at h
        simpa [List.lookup, beq_eq_false_iff_ne.mpr hk] using ih h

theorem updateEntries_of_disjoint {α : Type} :
    ∀ {l : List (String × α)} {d : List (String × α)},
      (∀ k ∈ l.map Prod.fst, List.lookup k d = Option.none) →
      (l.map Prod.fst).Nodup → updateEntries d l = d ++ l := by
  intro l
  induction l with
  | nil => intro d _ _; simp [updateEntries]
  | cons e rest ih =>
      intro d hdis hnd
      obtain ⟨k, v⟩ := e
      have h1 : List.lookup k d = Option.none := hdis k (by simp)
      have hstep : updateEntries d ((k, v) :: rest) = updateEntries (d ++ [(k, v)]) rest := by
        simp [updateEntries, dictUpd_of_lookup_none v h1]
      have hkrest : k ∉ rest.map Prod.fst := by
        have := hnd
        simp only [List.map_cons, List.nodup_cons] at this
        exact this.1
      have hdis' : ∀ k' ∈ rest.map Prod.fst, List.lookup k' (d ++ [(k, v)]) = Option.none := by
        intro k' hk'
        have hne : k' ≠ k := fun he => hkrest (he ▸ hk')
        rw [lookup_append_of_none _ k' (hdis k' (by simp [hk']))]
        simp [List.lookup, beq_eq_false_iff_ne.mpr hne]
      have hnd' : (rest.map Prod.fst).Nodup := by
        have := hnd
        simp only [List.map_cons, List.nodup_cons] at this
        exact this.2
      rw [hstep, ih hdis' hnd']
      simp

theorem updateEntries_nil_of_nodup {α : Type} {l : List (String × α)}
    (h : (l.map Prod.fst).Nodup) : updateEntries [] l = l := by
  simpa using updateEntries_of_disjoint (by simp) h

/-! ## Projector lemmas: the visited set only grows, and enough fuel makes
projection total -/

theorem opt_shape {α β : Type} {res : Option (α × List ℕ)} {g : α → β} {j : β} {s' : List ℕ}
    (h : (match res with
          | Option.none => Option.none
          | some (x, s1) => some (g x, s1)) = some (j, s')) :
    ∃ x, res = some (x, s') := by
  cases res with
  | none => exact absurd h (by simp)
  | some p =>
      obtain ⟨x, s1⟩ := p
      simp only [Option.some.injEq, Prod.mk.injEq] at h
      exact ⟨x, by rw [h.2]⟩

theorem stepEntries_suffix {go : List ℕ → Val → Option (Json × List ℕ)}
    (hgo : ∀ s v j s', go s v = some (j, s') → s <:+ s') :
    ∀ (l : List (String × Val)) (s : List ℕ) (js : List (String × Json)) (s' : List ℕ),
      stepEntries go s l = some (js, s') → s <:+ s' := by
  intro l
  induction l with
  | nil =>
      intro s js s' h
      simp only [stepEntries, Option.some.injEq, Prod.mk.injEq] at h
      exact h.2 ▸ List.suffix_refl s
  | cons e rest ih =>
      intro s js s' h
      obtain ⟨k, v⟩ := e
      simp only [stepEntries] at h
      cases hg : go s v with
      | none => rw [hg] at h; exact absurd h (by simp)
      | some p =>
          obtain ⟨j1, s1⟩ := p
          rw [hg] at h
          dsimp only at h
          cases hr : stepEntries go s1 rest with
          | none => rw [hr] at h; exact absurd h (by simp)
          | some p2 =>
              obtain ⟨js2, s2⟩ := p2
              rw [hr] at h
              simp only [Option.some.injEq, Prod.mk.injEq] at h
              exact h.2 ▸ (hgo s v j1 s1 hg).trans (ih s1 js2 s2 hr)

theorem stepList_suffix {go : List ℕ → Val → Option (Json × List ℕ)}
    (hgo : ∀ s v j s', go s v = some (j, s') → s <:+ s') :
    ∀ (l : List Val) (s : List ℕ) (js : List Json) (s' : List ℕ),
      stepList go s l = some (js, s') → s <:+ s' := by
  intro l
  induction l with
  | nil =>
      intro s js s' h
      simp only [stepList, Option.some.injEq, Prod.mk.injEq] at h
      exact h.2 ▸ List.suffix_refl s
  | cons v rest ih =>
      intro s js s' h
      simp only [stepList] at h
      cases hg : go s v with
      | none => rw [hg] at h; exact absurd h (by simp)
      | some p =>
          obtain ⟨j1, s1⟩ := p
          rw [hg] at h
          dsimp only at h
          cases hr : stepList go s1 rest with
          | none => rw [hr] at h; exact absurd h (by simp)
          | some p2 =>
              obtain ⟨js2, s2⟩ := p2
              rw [hr] at h
              simp only [Option.some.injEq, Prod.mk.injEq] at h
              exact h.2 ▸ (hgo s v j1 s1 hg).trans (ih s1 js2 s2 hr)

theorem convF_suffix (heap : List HeapObj) :
    ∀ (fuel : ℕ) (seen : List ℕ) (v : Val) (j : Json) (s' : List ℕ),
      convF heap fuel seen v = some (j, s') → seen <:+ s' := by
  intro fuel
  induction fuel with
  | zero =>
      intro seen v j s' h
      replace h : convFZero seen v = some (j, s') := h
      unfold convFZero at h
      split at h
      · split at h
        · simp only [Option.some.injEq, Prod.mk.injEq] at h
          exact h.2 ▸ List.suffix_refl seen
        · exact absurd h (by simp)
      · cases hs : scalarJson v with
        | none => rw [hs] at h; exact absurd h (by simp)
        | some jv =>
            rw [hs] at h
            simp only [Option.map_some', Option.some.injEq, Prod.mk.injEq] at h
            exact h.2 ▸ List.suffix_refl seen
  | succ fuel ih =>
      intro seen v j s' h
      replace h : convFStep heap (convF heap fuel) seen v = some (j, s') := h
      unfold convFStep at h
      split at h
      next o =>
        split at h
        next hmem =>
          simp only [Option.some.injEq, Prod.mk.injEq] at h
          exact h.2 ▸ List.suffix_refl seen
        next hmem =>
          have hsub : seen <:+ o :: seen := List.suffix_cons o seen
          have hgo : ∀ s v j s', convF heap fuel s v = some (j, s') → s <:+ s' :=
            fun s v j s' hh => ih s v j s' hh
          cases hho : heap.get? o with
          | none =>
              rw [hho] at h
              dsimp only at h
              simp only [Option.some.injEq, Prod.mk.injEq] at h
              exact h.2 ▸ hsub
          | some hobj =>
              rw [hho] at h
              cases hobj with
              | node ft asm data =>
                  dsimp only at h
                  cases hpy : stepEntries (convF heap fuel) (o :: seen) data with
                  | none => rw [hpy] at h; simp at h
                  | some p =>
                      obtain ⟨py, s1⟩ := p
                      rw [hpy] at h
                      dsimp only at h
                      simp only [Option.some.injEq, Prod.mk.injEq] at h
                      exact h.2 ▸ hsub.trans
                        (stepEntries_suffix hgo data (o :: seen) py s1 hpy)
              | dict entries =>
                  dsimp only at h
                  cases hes : stepEntries (convF heap fuel) (o :: seen) entries with
                  | none => rw [hes] at h; simp at h
                  | some p =>
                      obtain ⟨es, s1⟩ := p
                      rw [hes] at h
                      dsimp only at h
                      simp only [Option.some.injEq, Prod.mk.injEq] at h
                      exact h.2 ▸ hsub.trans
                        (stepEntries_suffix hgo entries (o :: seen) es s1 hes)
              | list elems =>
                  dsimp only at h
                  cases hjs : stepList (convF heap fuel) (o :: seen) elems with
                  | none => rw [hjs] at h; simp at h
                  | some p =>
                      obtain ⟨js, s1⟩ := p
                      rw [hjs] at h
                      dsimp only at h
                      simp only [Option.some.injEq, Prod.mk.injEq] at h
                      exact h.2 ▸ hsub.trans
                        (stepList_suffix hgo elems (o :: seen) js s1 hjs)
              | bytes bs =>
                  dsimp only at h
                  simp only [Option.some.injEq, Prod.mk.injEq] at h
                  exact h.2 ▸ hsub
              | fallbackObj tname fields =>
                  dsimp only at h
                  cases hes : stepEntries (convF heap fuel) (o :: seen) fields with
                  | none => rw [hes] at h; simp at h
                  | some p =>
                      obtain ⟨es, s1⟩ := p
                      rw [hes] at h
                      dsimp only at h
                      simp only [Option.some.injEq, Prod.mk.injEq] at h
                      exact h.2 ▸ hsub.trans
                        (stepEntries_suffix hgo fields (o :: seen) es s1 hes)
      next v' hne =>
        cases hs : scalarJson v with
        | none => rw [hs] at h; exact absurd h (by simp)
        | some jv =>
            rw [hs] at h
            simp only [Option.map_some', Option.some.injEq, Prod.mk.injEq] at h
            exact h.2 ▸ List.suffix_refl seen

theorem filter_len_mono {l : List ℕ} {p q : ℕ → Bool} (h : ∀ a ∈ l, p a = true → q a = true) :
    (l.filter p).length ≤ (l.filter q).length := by
  induction l with
  | nil => simp
  | cons a t ih =>
      have ht : ∀ b ∈ t, p b = true → q b = true := fun b hb => h b (by simp [hb])
      cases hp : p a with
      | true =>
          have hq : q a = true := h a (by simp) hp
          simp only [List.filter_cons, hp, hq, if_true, List.length_cons]
          exact Nat.succ_le_succ (ih ht)
      | false =>
          simp only [List.filter_cons, hp]
          cases hq : q a with
          | true => simp only [List.length_cons]; exact Nat.le_succ_of_le (ih ht)
          | false => exact ih ht

theorem filter_len_lt {l : List ℕ} {p q : ℕ → Bool} (h : ∀ a ∈ l, p a = true → q a = true)
    (a0 : ℕ) (ha : a0 ∈ l) (hq : q a0 = true) (hp : p a0 = false) :
    (l.filter p).length < (l.filter q).length := by
  induction l with
  | nil => exact absurd ha (by simp)
  | cons a t ih =>
      have ht : ∀ b ∈ t, p b = true → q b = true := fun b hb => h b (by simp [hb])
      rcases List.mem_cons.mp ha with rfl | hmem
      · simp only [List.filter_cons, hp, hq, if_true, List.length_cons]
        exact Nat.lt_succ_of_le (filter_len_mono ht)
      · cases hpa : p a with
        | true =>
            have hqa : q a = true := h a (by simp) hpa
            simp only [List.filter_cons, hpa, hqa, if_true, List.length_cons]
            exact Nat.succ_lt_succ (ih ht hmem)
        | false =>
            simp only [List.filter_cons, hpa]
            cases hqa : q a with
            | true => simp only [List.length_cons]; exact Nat.lt_succ_of_lt (ih ht hmem)
            | false => exact ih ht hmem

theorem unseenCount_mono (heap : List HeapObj) {s s' : List ℕ} (h : s <:+ s') :
    unseenCount heap s' ≤ unseenCount heap s := by
  apply filter_len_mono
  intro a _ hp
  simp only [decide_eq_true_eq] at hp ⊢
  exact fun hmem => hp (h.subset hmem)

theorem unseenCount_cons_lt (heap : List HeapObj) {seen : List ℕ} {o : ℕ}
    (ho : o < heap.length) (hmem : o ∉ seen) :
    unseenCount heap (o :: seen) < unseenCount heap seen := by
  refine filter_len_lt ?_ o ?_ ?_ ?_
  · intro a _ hp
    simp only [decide_eq_true_eq, List.mem_cons] at hp ⊢
    exact fun hm => hp (Or.inr hm)
  · simpa using ho
  · simpa using hmem
  · simp

/-- Seen-membership short-circuit: a reference already in the visited set
projects to `null` without touching the set, at any fuel. -/
theorem convF_mem_null (heap : List HeapObj) :
    ∀ (fuel : ℕ) (seen : List ℕ) (o : ℕ), o ∈ seen →
      convF heap fuel seen (.ref o) = some (.null, seen) := by
  intro fuel seen o hmem
  cases fuel with
  | zero =>
      show convFZero seen (.ref o) = some (.null, seen)
      simp [convFZero, hmem]
  | succ fuel =>
      show convFStep heap (convF heap fuel) seen (.ref o) = some (.null, seen)
      simp [convFStep, hmem]

/-- A successful first visit pushes the reference onto the visited set and
only ever extends it afterwards. -/
theorem convF_ref_new (heap : List HeapObj) :
    ∀ (fuel : ℕ) (seen : List ℕ) (o : ℕ) (j : Json) (s' : List ℕ), o ∉ seen →
      convF heap fuel seen (.ref o) = some (j, s') → o :: seen <:+ s' := by
  intro fuel seen o j s' hmem h
  cases fuel with
  | zero =>
      replace h : convFZero seen (.ref o) = some (j, s') := h
      simp [convFZero, hmem] at h
  | succ fuel =>
      replace h : convFStep heap (convF heap fuel) seen (.ref o) = some (j, s') := h
      unfold convFStep at h
      dsimp only at h
      rw [if_neg hmem] at h
      have hgo : ∀ s v j s', convF heap fuel s v = some (j, s') → s <:+ s' :=
        convF_suffix heap fuel
      cases hho : heap.get? o with
      | none =>
          rw [hho] at h
          dsimp only at h
          simp only [Option.some.injEq, Prod.mk.injEq] at h
          exact h.2 ▸ List.suffix_refl _
      | some hobj =>
          rw [hho] at h
          cases hobj with
          | node ft asm data =>
              dsimp only at h
              cases hpy : stepEntries (convF heap fuel) (o :: seen) data with
              | none => rw [hpy] at h; simp at h
              | some p =>
                  obtain ⟨py, s1⟩ := p
                  rw [hpy] at h
                  dsimp only at h
                  simp only [Option.some.injEq, Prod.mk.injEq] at h
                  exact h.2 ▸ stepEntries_suffix hgo data (o :: seen) py s1 hpy
          | dict entries =>
              dsimp only at h
              cases hes : stepEntries (convF heap fuel) (o :: seen) entries with
              | none => rw [hes] at h; simp at h
              | some p =>
                  obtain ⟨es, s1⟩ := p
                  rw [hes] at h
                  dsimp only at h
                  simp only [Option.some.injEq, Prod.mk.injEq] at h
                  exact h.2 ▸ stepEntries_suffix hgo entries (o :: seen) es s1 hes
          | list elems =>
              dsimp only at h
              cases hjs : stepList (convF heap fuel) (o :: seen) elems with
              | none => rw [hjs] at h; simp at h
              | some p =>
                  obtain ⟨js, s1⟩ := p
                  rw [hjs] at h
                  dsimp only at h
                  simp only [Option.some.injEq, Prod.mk.injEq] at h
                  exact h.2 ▸ stepList_suffix hgo elems (o :: seen) js s1 hjs
          | bytes bs =>
              dsimp only at h
              simp only [Option.some.injEq, Prod.mk.injEq] at h
              exact h.2 ▸ List.suffix_refl _
          | fallbackObj tname fields =>
              dsimp only at h
              cases hes : stepEntries (convF heap fuel) (o :: seen) fields with
              | none => rw [hes] at h; simp at h
              | some p =>
                  obtain ⟨es, s1⟩ := p
                  rw [hes] at h
                  dsimp only at h
                  simp only [Option.some.injEq, Prod.mk.injEq] at h
                  exact h.2 ▸ stepEntries_suffix hgo fields (o :: seen) es s1 hes

theorem convF_ref_mem (heap : List HeapObj) :
    ∀ (fuel : ℕ) (seen : List ℕ) (o : ℕ) (j : Json) (s' : List ℕ),
      convF heap fuel seen (.ref o) = some (j, s') → o ∈ s' := by
  intro fuel seen o j s' h
  by_cases hmem : o ∈ seen
  · rw [convF_mem_null heap fuel seen o hmem] at h
    simp only [Option.some.injEq, Prod.mk.injEq] at h
    exact h.2 ▸ hmem
  · exact (convF_ref_new heap fuel seen o j s' hmem h).subset (by simp)

theorem stepEntries_isSome {heap : List HeapObj} {fuel : ℕ}
    {go : List ℕ → Val → Option (Json × List ℕ)}
    (hgo_suffix : ∀ s v j s', go s v = some (j, s') → s <:+ s')
    (hgo_some : ∀ s v, unseenCount heap s < fuel → (go s v).isSome = true) :
    ∀ (l : List (String × Val)) (s : List ℕ), unseenCount heap s < fuel →
      (stepEntries go s l).isSome = true := by
  intro l
  induction l with
  | nil => intro s _; simp [stepEntries]
  | cons e rest ih =>
      intro s hs
      obtain ⟨k, v⟩ := e
      obtain ⟨p, hg⟩ := Option.isSome_iff_exists.mp (hgo_some s v hs)
      obtain ⟨j1, s1⟩ := p
      have hs1 : unseenCount heap s1 < fuel :=
        lt_of_le_of_lt (unseenCount_mono heap (hgo_suffix s v j1 s1 hg)) hs
      obtain ⟨p2, hr⟩ := Option.isSome_iff_exists.mp (ih s1 hs1)
      obtain ⟨js, s2⟩ := p2
      simp [stepEntries, hg, hr]

theorem stepList_isSome {heap : List HeapObj} {fuel : ℕ}
    {go : List ℕ → Val → Option (Json × List ℕ)}
    (hgo_suffix : ∀ s v j s', go s v = some (j, s') → s <:+ s')
    (hgo_some : ∀ s v, unseenCount heap s < fuel → (go s v).isSome = true) :
    ∀ (l : List Val) (s : List ℕ), unseenCount heap s < fuel →
      (stepList go s l).isSome = true := by
  intro l
  induction l with
  | nil => intro s _; simp [stepList]
  | cons v rest ih =>
      intro s hs
      obtain ⟨p, hg⟩ := Option.isSome_iff_exists.mp (hgo_some s v hs)
      obtain ⟨j1, s1⟩ := p
      have hs1 : unseenCount heap s1 < fuel :=
        lt_of_le_of_lt (unseenCount_mono heap (hgo_suffix s v j1 s1 hg)) hs
      obtain ⟨p2, hr⟩ := Option.isSome_iff_exists.mp (ih s1 hs1)
      obtain ⟨js, s2⟩ := p2
      simp [stepList, hg, hr]

/-- Fuel sufficiency: with more fuel than there are unvisited heap objects
the projector cannot run out.  This is the termination argument for the
unbounded source recursion: every level of real recursion into an object
marks a fresh object visited first. -/
theorem convF_isSome (heap : List HeapObj) :
    ∀ (fuel : ℕ) (seen : List ℕ) (v : Val), unseenCount heap seen < fuel →
      (convF heap fuel seen v).isSome = true := by
  intro fuel
  induction fuel with
  | zero => intro seen v h; exact absurd h (by omega)
  | succ fuel ih =>
      intro seen v h
      show (convFStep heap (convF heap fuel) seen v).isSome = true
      cases v with
      | ref o =>
          by_cases hmem : o ∈ seen
          · simp [convFStep, hmem]
          · cases hho : heap.get? o with
            | none => simp [convFStep, hmem, ← List.get?_eq_getElem?, hho]
            | some hobj =>
                have hlt : o < heap.length := by
                  obtain ⟨hl, -⟩ := List.get?_eq_some.mp hho
                  exact hl
                have hnew : unseenCount heap (o :: seen) < fuel :=
                  lt_of_lt_of_le (unseenCount_cons_lt heap hlt hmem) (Nat.lt_succ_iff.mp h)
                have hgo_suffix := convF_suffix heap fuel
                have hgo_some : ∀ s v, unseenCount heap s < fuel →
                    (convF heap fuel s v).isSome = true := fun s v hs => ih s v hs
                cases hobj with
                | node ft asm data =>
                    obtain ⟨p, hp⟩ := Option.isSome_iff_exists.mp
                      (stepEntries_isSome hgo_suffix hgo_some data (o :: seen) hnew)
                    obtain ⟨py, s1⟩ := p
                    simp [convFStep, hmem, ← List.get?_eq_getElem?, hho, hp]
                | dict entries =>
                    obtain ⟨p, hp⟩ := Option.isSome_iff_exists.mp
                      (stepEntries_isSome hgo_suffix hgo_some entries (o :: seen) hnew)
                    obtain ⟨es, s1⟩ := p
                    simp [convFStep, hmem, ← List.get?_eq_getElem?, hho, hp]
                | list elems =>
                    obtain ⟨p, hp⟩ := Option.isSome_iff_exists.mp
                      (stepList_isSome hgo_suffix hgo_some elems (o :: seen) hnew)
                    obtain ⟨js, s1⟩ := p
                    simp [convFStep, hmem, ← List.get?_eq_getElem?, hho, hp]
                | bytes bs => simp [convFStep, hmem, ← List.get?_eq_getElem?, hho]
                | fallbackObj tname fields =>
                    obtain ⟨p, hp⟩ := Option.isSome_iff_exists.mp
                      (stepEntries_isSome hgo_suffix hgo_some fields (o :: seen) hnew)
                    obtain ⟨es, s1⟩ := p
                    simp [convFStep, hmem, ← List.get?_eq_getElem?, hho, hp]
      | null => simp [convFStep, scalarJson]
      | bool b => simp [convFStep, scalarJson]
      | int n => simp [convFStep, scalarJson]
      | float q => simp [convFStep, scalarJson]
      | str s => simp [convFStep, scalarJson]
      | decimal q => simp [convFStep, scalarJson]
      | datetime iso => simp [convFStep, scalarJson]
      | guid g => simp [convFStep, scalarJson]

theorem lookup_dictUpd_self {α : Type} (d : List (String × α)) (k : String) (v : α) :
    List.lookup k (dictUpd d k v) = some v := by
  induction d with
  | nil => simp [dictUpd, List.lookup]
  | cons e rest ih =>
      obtain ⟨k1, v1⟩ := e
      by_cases hk : k1 = k
      · subst hk; simp [dictUpd, lookup_cons_self]
      · simp only [dictUpd, if_neg hk]
        rw [lookup_cons_ne v1 _ (fun he => hk he.symm)]
        exact ih

theorem lookup_dictUpd_ne {α : Type} (d : List (String × α)) {k k0 : String} (v0 : α)
    (h : k ≠ k0) : List.lookup k (dictUpd d k0 v0) = List.lookup k d := by
  induction d with
  | nil => simp [dictUpd, List.lookup, beq_eq_false_iff_ne.mpr h]
  | cons e rest ih =>
      obtain ⟨k1, v1⟩ := e
      by_cases hk : k1 = k0
      · subst hk
        have hd : dictUpd ((k1, v1) :: rest) k1 v0 = (k1, v0) :: rest := by simp [dictUpd]
        rw [hd, lookup_cons_ne v0 _ h, lookup_cons_ne v1 _ h]
      · simp only [dictUpd, if_neg hk]
        by_cases hk1 : k = k1
        · subst hk1; rw [lookup_cons_self, lookup_cons_self]
        · rw [lookup_cons_ne v1 _ hk1, lookup_cons_ne v1 _ hk1]
          exact ih

theorem lookup_updateEntries_of_not_mem {α : Type} :
    ∀ {py : List (String × α)} {d : List (String × α)} {k : String},
      k ∉ py.map Prod.fst → List.lookup k (updateEntries d py) = List.lookup k d := by
  intro py
  induction py with
  | nil => intro d k _; rfl
  | cons e rest ih =>
      intro d k hk
      obtain ⟨k0, v0⟩ := e
      have hne : k ≠ k0 := fun he => hk (by simp [he])
      have hrest : k ∉ rest.map Prod.fst := fun hm => hk (by simp [hm])
      show List.lookup k (updateEntries (dictUpd d k0 v0) rest) = List.lookup k d
      rw [ih hrest, lookup_dictUpd_ne d v0 hne]

theorem lookup_updateEntries_mem_nodup {α : Type} :
    ∀ {py : List (String × α)} {d : List (String × α)} {k : String} {v : α},
      (py.map Prod.fst).Nodup → (k, v) ∈ py →
      List.lookup k (updateEntries d py) = some v := by
  intro py
  induction py with
  | nil => intro d k v _ hm; exact absurd hm (by simp)
  | cons e rest ih =>
      intro d k v hnd hm
      obtain ⟨k0, v0⟩ := e
      have hnd' : (rest.map Prod.fst).Nodup := by
        simp only [List.map_cons, List.nodup_cons] at hnd
        exact hnd.2
      rcases List.mem_cons.mp hm with he | hmem
      · obtain ⟨rfl, rfl⟩ := Prod.mk.injEq .. ▸ he
        have hk0 : k ∉ rest.map Prod.fst := by
          simp only [List.map_cons, List.nodup_cons] at hnd
          exact hnd.1
        show List.lookup k (updateEntries (dictUpd d k v) rest) = some v
        rw [lookup_updateEntries_of_not_mem hk0, lookup_dictUpd_self]
      · exact ih hnd' hmem

theorem lookup_of_mem_nodup {α : Type} :
    ∀ {l : List (String × α)} {k : String} {v : α},
      (l.map Prod.fst).Nodup → (k, v) ∈ l → List.lookup k l = some v := by
  intro l
  induction l with
  | nil => intro k v _ hm; exact absurd hm (by simp)
  | cons e rest ih =>
      intro k v hnd hm
      obtain ⟨k0, v0⟩ := e
      rcases List.mem_cons.mp hm with he | hmem
      · obtain ⟨rfl, rfl⟩ := Prod.mk.injEq .. ▸ he
        exact lookup_cons_self k v rest
      · have hk : k ≠ k0 := by
          intro he
          subst he
          simp only [List.map_cons, List.nodup_cons] at hnd
          exact hnd.1 (by simpa using List.mem_map_of_mem Prod.fst hmem)
        rw [lookup_cons_ne v0 _ hk]
        exact ih (by simp only [List.map_cons, List.nodup_cons] at hnd; exact hnd.2) hmem

/-- Projecting a list of fields keeps the field names, in order. -/
theorem stepEntries_keys {go : List ℕ → Val → Option (Json × List ℕ)} :
    ∀ (l : List (String × Val)) (s : List ℕ) (js : List (String × Json)) (s' : List ℕ),
      stepEntries go s l = some (js, s') → js.map Prod.fst = l.map Prod.fst := by
  intro l
  induction l with
  | nil =>
      intro s js s' h
      simp only [stepEntries, Option.some.injEq, Prod.mk.injEq] at h
      simp [← h.1]
  | cons e rest ih =>
      intro s js s' h
      obtain ⟨k, v⟩ := e
      simp only [stepEntries] at h
      cases hg : go s v with
      | none => rw [hg] at h; exact absurd h (by simp)
      | some p =>
          obtain ⟨j1, s1⟩ := p
          rw [hg] at h
          dsimp only at h
          cases hr : stepEntries go s1 rest with
          | none => rw [hr] at h; exact absurd h (by simp)
          | some p2 =>
              obtain ⟨js2, s2⟩ := p2
              rw [hr] at h
              simp only [Option.some.injEq, Prod.mk.injEq] at h
              rw [← h.1]
              simp [ih s1 js2 s2 hr]

/-- The projector is the identity (with unchanged visited set) on every
scalar, at any fuel level. -/
theorem convF_scalar (heap : List HeapObj) :
    ∀ (fuel : ℕ) (s : List ℕ) (v : Val) (j : Json), scalarJson v = some j →
      convF heap fuel s v = some (j, s) := by
  intro fuel s v j h
  cases fuel with
  | zero =>
      show convFZero s v = some (j, s)
      cases v <;> simp_all [convFZero, scalarJson]
  | succ fuel =>
      show convFStep heap (convF heap fuel) s v = some (j, s)
      cases v <;> simp_all [convFStep, scalarJson]

/-- Every scalar field of a projected field list appears in the output with
its scalar projection. -/
theorem stepEntries_scalar_at {go : List ℕ → Val → Option (Json × List ℕ)}
    (hscal : ∀ s v j, scalarJson v = some j → go s v = some (j, s)) :
    ∀ (l : List (String × Val)) (s : List ℕ) (js : List (String × Json)) (s' : List ℕ),
      stepEntries go s l = some (js, s') →
      ∀ (k : String) (v : Val) (j : Json), (k, v) ∈ l → scalarJson v = some j →
        (k, j) ∈ js := by
  intro l
  induction l with
  | nil => intro s js s' h k v j hm _; exact absurd hm (by simp)
  | cons e rest ih =>
      intro s js s' h k v j hm hj
      obtain ⟨k0, v0⟩ := e
      simp only [stepEntries] at h
      cases hg : go s v0 with
      | none => rw [hg] at h; exact absurd h (by simp)
      | some p =>
          obtain ⟨j1, s1⟩ := p
          rw [hg] at h
          dsimp only at h
          cases hr : stepEntries go s1 rest with
          | none => rw [hr] at h; exact absurd h (by simp)
          | some p2 =>
              obtain ⟨js2, s2⟩ := p2
              rw [hr] at h
              simp only [Option.some.injEq, Prod.mk.injEq] at h
              rcases List.mem_cons.mp hm with he | hmem
              · obtain ⟨rfl, rfl⟩ := Prod.mk.injEq .. ▸ he
                have := hscal s v j hj
                rw [this] at hg
                simp only [Option.some.injEq, Prod.mk.injEq] at hg
                rw [← h.1]
                simp [hg.1]
              · rw [← h.1]
                exact List.mem_cons_of_mem _ (ih s1 js2 s2 hr k v j hmem hj)

/-- A non-empty-prefix test can only succeed on a non-empty string. -/
theorem ne_empty_of_startsWith_saving {s : String} (h : strStartsWith s savingNs = true) :
    s ≠ "" := by
  intro he
  subst he
  exact absurd h (by decide)

/-! ## C5: the value-coercion table -/

/-- C5: the literal coercer maps `"true"` (case-insensitively, likewise
`"false"` and `"null"`) to the boolean/null values, `"0042"` to the string
`"0042"`, `"42"` to the integer 42 (narrowed to `Int32` by `_to_net`),
`"3.14"` to the double 3.14, a quoted `"007"` to the string `007` with the
quotes stripped, and any token whose numeric parse fails to itself as a
string. -/
theorem C5_coercion_table :
    parse_value_literal "true" = PyVal.bool true
  ∧ parse_value_literal "TRUE" = PyVal.bool true
  ∧ parse_value_literal "False" = PyVal.bool false
  ∧ parse_value_literal "nULL" = PyVal.none
  ∧ parse_value_literal "0042" = PyVal.str "0042"
  ∧ parse_value_literal "42" = PyVal.int 42
  ∧ _to_net (parse_value_literal "42") = NetVal.int32 42
  ∧ parse_value_literal "3.14" = PyVal.float (157 / 50)
  ∧ parse_value_literal "\"007\"" = PyVal.str "007"
  ∧ ∀ s : String,
      ¬(2 ≤ s.toList.length ∧
          ((s.toList.head? = some '"' ∧ s.toList.getLast? = some '"') ∨
           (s.toList.head? = some '\'' ∧ s.toList.getLast? = some '\''))) →
      strLower s ≠ "true" → strLower s ≠ "false" → strLower s ≠ "null" →
      (match s.toList with | '0' :: c :: _ => c.isDigit | _ => false) = false →
      pyFloat s = Option.none → pyInt s = Option.none →
      parse_value_literal s = PyVal.str s := by
  refine ⟨by decide, by decide, by decide, by decide, by decide, by decide, by decide, ?_,
          by decide, ?_⟩
  · have h : parse_value_literal "3.14"
        = PyVal.float (((3 : ℕ) : ℚ) + ((14 : ℕ) : ℚ) / (10 : ℚ) ^ (2 : ℕ)) := rfl
    rw [h]
    norm_num
  · intro s h1 h2 h3 h4 h5 h6 h7
    simp only [parse_value_literal]
    split_ifs with hz hfl
    · rfl
    · rw [h6]
    · rw [h7]

/-- C5 witness: the fallback component applied at the unparseable numeric
token `12ab`. -/
theorem C5_witness : parse_value_literal "12ab" = PyVal.str "12ab" :=
  C5_coercion_table.2.2.2.2.2.2.2.2.2 "12ab" (by decide) (by decide) (by decide) (by decide)
    (by decide) (by decide) (by decide)

/-! ## C6: totality and priority of the binder policy -/

/-- C6: `BindToType` always returns one of node / native / fallback; any
type or assembly name starting with the reserved `Everbyte.TextGame.Saving`
prefix yields the capture node regardless of the native resolver; and when
neither name carries the prefix, a successful native resolution wins (the
case-insensitive vendor-substring rule is only consulted after native
resolution fails). -/
theorem C6_binder_policy :
    ∀ (τ : Type) (getType : String → Option τ) (assemblyName typeName : String),
      (BindToType getType assemblyName typeName = BindResult.node ∨
       (∃ t, BindToType getType assemblyName typeName = BindResult.native t) ∨
       BindToType getType assemblyName typeName = BindResult.obj)
    ∧ ((strStartsWith typeName savingNs = true ∨ strStartsWith assemblyName savingNs = true) →
        BindToType getType assemblyName typeName = BindResult.node)
    ∧ (strStartsWith typeName savingNs = false → strStartsWith assemblyName savingNs = false →
        ∀ t, getType (if assemblyName = "" then typeName
                      else typeName ++ ", " ++ assemblyName) = some t →
          BindToType getType assemblyName typeName = BindResult.native t) := by
  intro τ getType assemblyName typeName
  refine ⟨?_, ?_, ?_⟩
  · cases h : BindToType getType assemblyName typeName with
    | node => exact Or.inl rfl
    | native t => exact Or.inr (Or.inl ⟨t, rfl⟩)
    | obj => exact Or.inr (Or.inr rfl)
  · intro h
    rcases h with h | h
    · have hne := ne_empty_of_startsWith_saving h
      simp only [BindToType]
      rw [if_pos ⟨hne, h⟩]
    · by_cases ht : typeName ≠ "" ∧ strStartsWith typeName savingNs = true
      · simp only [BindToType]
        rw [if_pos ht]
      · have hne := ne_empty_of_startsWith_saving h
        simp only [BindToType]
        rw [if_neg ht, if_pos ⟨hne, h⟩]
  · intro hf ha t hg
    simp only [BindToType]
    rw [if_neg (by simp [hf]), if_neg (by simp [ha]), hg]

/-- C6 witness: the prefix rule fires even when the native resolver would
succeed, and a native resolution wins over the vendor-substring rule. -/
theorem C6_witness :
    BindToType (fun _ => some 7) "mscorlib" "Everbyte.TextGame.Saving.PersData"
      = BindResult.node
  ∧ BindToType (fun s => if s = "System.Collections.Everbyte, lib" then some 3 else Option.none)
      "lib" "System.Collections.Everbyte" = BindResult.native 3 :=
  ⟨(C6_binder_policy ℕ (fun _ => some 7) "mscorlib" "Everbyte.TextGame.Saving.PersData").2.1
      (Or.inl (by decide)),
   (C6_binder_policy ℕ (fun s => if s = "System.Collections.Everbyte, lib" then some 3
        else Option.none) "lib" "System.Collections.Everbyte").2.2
      (by decide) (by decide) 3 (by decide)⟩

/-! ## C7: the capture node round-trip -/

/-- C7: constructing a `Node` from a `SerializationInfo` (identity pair plus
ordered field enumeration with distinct names) and emitting it through
`GetObjectData` reproduces the identity and the exact field list: a
non-empty identity string is written back verbatim, an empty one leaves the
outgoing header untouched, and every captured field is re-emitted with its
stored name and value, none dropped, renamed or added. -/
theorem C7_node_roundtrip :
    ∀ info d0 : SerializationInfo,
      (info.entries.map Prod.fst).Nodup → d0.entries = [] →
      ((Node.fromSerializationInfo info).GetObjectData d0).entries = info.entries
    ∧ (info.fullTypeName ≠ "" →
        ((Node.fromSerializationInfo info).GetObjectData d0).fullTypeName = info.fullTypeName)
    ∧ (info.fullTypeName = "" →
        ((Node.fromSerializationInfo info).GetObjectData d0).fullTypeName = d0.fullTypeName)
    ∧ (info.assemblyName ≠ "" →
        ((Node.fromSerializationInfo info).GetObjectData d0).assemblyName = info.assemblyName)
    ∧ (info.assemblyName = "" →
        ((Node.fromSerializationInfo info).GetObjectData d0).assemblyName = d0.assemblyName) := by
  intro info d0 hnd hd0
  refine ⟨?_, ?_, ?_, ?_, ?_⟩
  · simp only [Node.GetObjectData, Node.fromSerializationInfo]
    split_ifs <;> simp_all [updateEntries_nil_of_nodup hnd]
  · intro h
    simp only [Node.GetObjectData, Node.fromSerializationInfo]
    split_ifs <;> simp_all
  · intro h
    simp only [Node.GetObjectData, Node.fromSerializationInfo]
    split_ifs <;> simp_all
  · intro h
    simp only [Node.GetObjectData, Node.fromSerializationInfo]
    split_ifs <;> simp_all
  · intro h
    simp only [Node.GetObjectData, Node.fromSerializationInfo]
    split_ifs <;> simp_all

/-- C7 witness: a concrete round trip through the two hooks. -/
theorem C7_witness :
    ((Node.fromSerializationInfo ⟨"T", "A", [("hp", Val.int 5)]⟩).GetObjectData
        ⟨"KatRoundtrip.Node", "helper", []⟩).entries = [("hp", Val.int 5)]
  ∧ ((Node.fromSerializationInfo ⟨"T", "A", [("hp", Val.int 5)]⟩).GetObjectData
        ⟨"KatRoundtrip.Node", "helper", []⟩).fullTypeName = "T" := by
  have h := C7_node_roundtrip ⟨"T", "A", [("hp", Val.int 5)]⟩ ⟨"KatRoundtrip.Node", "helper", []⟩
    (by decide) rfl
  exact ⟨h.1, h.2.1 (by decide)⟩

/-! ## C9: integer narrowing in `_to_net` -/

/-- C9: `_to_net` narrows a Python integer to the narrowest of
`Int32`, `Int64`, `Decimal` that fits its magnitude, in that order. -/
theorem C9_int_narrowing :
    ∀ n : ℤ,
      ((-2147483648 ≤ n ∧ n ≤ 2147483647) → _to_net (PyVal.int n) = NetVal.int32 n)
    ∧ (¬(-2147483648 ≤ n ∧ n ≤ 2147483647) →
        (-9223372036854775808 ≤ n ∧ n ≤ 9223372036854775807) →
        _to_net (PyVal.int n) = NetVal.int64 n)
    ∧ (¬(-2147483648 ≤ n ∧ n ≤ 2147483647) →
        ¬(-9223372036854775808 ≤ n ∧ n ≤ 9223372036854775807) →
        _to_net (PyVal.int n) = NetVal.decimal (n : ℚ)) := by
  intro n
  refine ⟨?_, ?_, ?_⟩
  · intro h; simp [_to_net, h]
  · intro h1 h2; simp [_to_net, h1, h2]
  · intro h1 h2; simp [_to_net, h1, h2]

/-- C9 witness: one value in each band. -/
theorem C9_witness :
    _to_net (PyVal.int 5) = NetVal.int32 5
  ∧ _to_net (PyVal.int 5000000000) = NetVal.int64 5000000000
  ∧ _to_net (PyVal.int 100000000000000000000) = NetVal.decimal 100000000000000000000 := by
  refine ⟨(C9_int_narrowing 5).1 (by decide), (C9_int_narrowing 5000000000).2.1 (by decide)
      (by decide), ?_⟩
  have h := (C9_int_narrowing 100000000000000000000).2.2 (by decide) (by decide)
  rw [h]
  norm_num

/-! ## Heap-update lemmas -/

theorem heap_get?_set_ne (heap : List HeapObj) (o0 : ℕ) (x : HeapObj) {o : ℕ} (h : o ≠ o0) :
    (heap.set o0 x).get? o = heap.get? o := by
  simp [List.get?_eq_getElem?, List.getElem?_set_ne (fun he => h he.symm)]

theorem heap_get?_set_self {heap : List HeapObj} {o0 : ℕ} (x : HeapObj) {y : HeapObj}
    (h : heap.get? o0 = some y) : (heap.set o0 x).get? o0 = some x := by
  have hi : o0 < heap.length := by
    obtain ⟨hl, -⟩ := List.get?_eq_some.mp h
    exact hl
  simp [List.get?_eq_getElem?, List.getElem?_set_self, hi]

theorem set_preserves_list_len {heap : List HeapObj} {o0 : ℕ} {x : HeapObj}
    (hx : ∀ elems, heap.get? o0 = some (.list elems) →
      ∃ elems', x = .list elems' ∧ elems'.length = elems.length) :
    ∀ (o : ℕ) (l : List Val), heap.get? o = some (.list l) →
      ∃ l', (heap.set o0 x).get? o = some (.list l') ∧ l'.length = l.length := by
  intro o l hl
  by_cases ho : o = o0
  · subst ho
    obtain ⟨l', hx', hlen⟩ := hx l hl
    exact ⟨l', by rw [heap_get?_set_self x hl, hx'], hlen⟩
  · exact ⟨l, by rw [heap_get?_set_ne heap o0 x ho]; exact hl, rfl⟩

/-! ## Behaviour of the terminal store -/

/-- The terminal store either succeeds or leaves the heap untouched. -/
theorem assignAtSlot_unchanged_or_ok (heap : List HeapObj) (parent : Val) (tk : Tok)
    (p : String) (v : Val) :
    (assignAtSlot heap parent tk p v).1 = heap ∨
    (assignAtSlot heap parent tk p v).2 = Option.none := by
  unfold assignAtSlot
  repeat' split
  all_goals simp

/-- Every failing terminal store leaves the heap untouched. -/
theorem assignAtSlot_err_unchanged (heap : List HeapObj) (parent : Val) (tk : Tok)
    (p : String) (v : Val) (e : SetErr) :
    (assignAtSlot heap parent tk p v).2 = some e → (assignAtSlot heap parent tk p v).1 = heap := by
  intro h
  rcases assignAtSlot_unchanged_or_ok heap parent tk p v with h1 | h2
  · exact h1
  · rw [h2] at h
    exact absurd h (by simp)

/-- Every successful terminal store preserves the length of every sequence
in the heap (sequences are only written in place at an in-range index). -/
theorem assignAtSlot_ok_list_len (heap : List HeapObj) (parent : Val) (tk : Tok)
    (p : String) (v : Val) (heap' : List HeapObj) :
    assignAtSlot heap parent tk p v = (heap', Option.none) →
    ∀ (o : ℕ) (l : List Val), heap.get? o = some (.list l) →
      ∃ l', heap'.get? o = some (.list l') ∧ l'.length = l.length := by
  intro h o l hl
  unfold assignAtSlot at h
  cases tk with
  | key k =>
      dsimp only at h
      cases parent with
      | ref o0 =>
          dsimp only at h
          cases hho : heap.get? o0 with
          | none =>
              rw [hho] at h
              dsimp only at h
              exact absurd (congrArg Prod.snd h) (by simp)
          | some hobj =>
              rw [hho] at h
              cases hobj with
              | node ft asm data =>
                  dsimp only at h
                  have hh : heap' = heap.set o0 (.node ft asm (dictUpd data k v)) :=
                    (congrArg Prod.fst h).symm
                  subst hh
                  refine set_preserves_list_len ?_ o l hl
                  intro elems hle
                  rw [hho] at hle
                  exact absurd hle (by simp)
              | dict entries =>
                  dsimp only at h
                  have hh : heap' = heap.set o0 (.dict (dictUpd entries k v)) :=
                    (congrArg Prod.fst h).symm
                  subst hh
                  refine set_preserves_list_len ?_ o l hl
                  intro elems hle
                  rw [hho] at hle
                  exact absurd hle (by simp)
              | list elems =>
                  dsimp only at h
                  exact absurd (congrArg Prod.snd h) (by simp)
              | bytes bs =>
                  dsimp only at h
                  exact absurd (congrArg Prod.snd h) (by simp)
              | fallbackObj tname fields =>
                  dsimp only at h
                  exact absurd (congrArg Prod.snd h) (by simp)
      | null => dsimp only at h; exact absurd (congrArg Prod.snd h) (by simp)
      | bool b => dsimp only at h; exact absurd (congrArg Prod.snd h) (by simp)
      | int n => dsimp only at h; exact absurd (congrArg Prod.snd h) (by simp)
      | float q => dsimp only at h; exact absurd (congrArg Prod.snd h) (by simp)
      | str s => dsimp only at h; exact absurd (congrArg Prod.snd h) (by simp)
      | decimal q => dsimp only at h; exact absurd (congrArg Prod.snd h) (by simp)
      | datetime iso => dsimp only at h; exact absurd (congrArg Prod.snd h) (by simp)
      | guid g => dsimp only at h; exact absurd (congrArg Prod.snd h) (by simp)
  | idx i =>
      dsimp only at h
      cases parent with
      | ref o0 =>
          dsimp only at h
          cases hho : heap.get? o0 with
          | none =>
              rw [hho] at h
              dsimp only at h
              exact absurd (congrArg Prod.snd h) (by simp)
          | some hobj =>
              rw [hho] at h
              cases hobj with
              | list elems =>
                  dsimp only at h
                  by_cases hi : i < elems.length
                  · rw [if_pos hi] at h
                    have hh : heap' = heap.set o0 (.list (elems.set i v)) :=
                      (congrArg Prod.fst h).symm
                    subst hh
                    refine set_preserves_list_len ?_ o l hl
                    intro elems2 hle
                    rw [hho] at hle
                    simp only [Option.some.injEq, HeapObj.list.injEq] at hle
                    exact ⟨elems.set i v, rfl, by rw [← hle]; simp⟩
                  · rw [if_neg hi] at h
                    exact absurd (congrArg Prod.snd h) (by simp)
              | node ft asm data =>
                  dsimp only at h
                  exact absurd (congrArg Prod.snd h) (by simp)
              | dict entries =>
                  dsimp only at h
                  exact absurd (congrArg Prod.snd h) (by simp)
              | bytes bs =>
                  dsimp only at h
                  exact absurd (congrArg Prod.snd h) (by simp)
              | fallbackObj tname fields =>
                  dsimp only at h
                  exact absurd (congrArg Prod.snd h) (by simp)
      | null => dsimp only at h; exact absurd (congrArg Prod.snd h) (by simp)
      | bool b => dsimp only at h; exact absurd (congrArg Prod.snd h) (by simp)
      | int n => dsimp only at h; exact absurd (congrArg Prod.snd h) (by simp)
      | float q => dsimp only at h; exact absurd (congrArg Prod.snd h) (by simp)
      | str s => dsimp only at h; exact absurd (congrArg Prod.snd h) (by simp)
      | decimal q => dsimp only at h; exact absurd (congrArg Prod.snd h) (by simp)
      | datetime iso => dsimp only at h; exact absurd (congrArg Prod.snd h) (by simp)
      | guid g => dsimp only at h; exact absurd (congrArg Prod.snd h) (by simp)

/-! ## C8: cycle-safe projection -/

/-- C8: projection of any graph (cyclic or not) terminates with a finite
tree — with fuel `heap.length + 1` the fuel-indexed projector never runs
out, which is the termination argument for the unbounded source recursion;
a reference that is already in the visited set projects to `null` without
recursing; and a node whose field refers straight back to itself projects
to an object whose entry for that field is `null` — the reference is
marked visited before its children are projected. -/
theorem C8_cycle_safe :
    ∀ heap : List HeapObj,
      (∀ v : Val, (to_jsonable heap v).isSome = true)
    ∧ (∀ (fuel : ℕ) (seen : List ℕ) (o : ℕ), o ∈ seen →
         convF heap fuel seen (.ref o) = some (.null, seen))
    ∧ (∀ (fuel : ℕ) (seen : List ℕ) (o : ℕ) (ft asm f : String),
         heap.get? o = some (.node ft asm [(f, .ref o)]) → o ∉ seen →
         convF heap (fuel + 1) seen (.ref o)
           = some (.obj (updateEntries (reservedEntries ft asm) [(f, Json.null)]), o :: seen)
         ∧ List.lookup f (updateEntries (reservedEntries ft asm) [(f, Json.null)])
             = some Json.null) := by
  intro heap
  refine ⟨?_, convF_mem_null heap, ?_⟩
  · intro v
    have hle : unseenCount heap [] < heap.length + 1 := by
      have h1 : unseenCount heap [] ≤ (List.range heap.length).length :=
        List.length_filter_le _ _
      simp only [List.length_range] at h1
      omega
    have h := convF_isSome heap (heap.length + 1) [] v hle
    obtain ⟨p, hp⟩ := Option.isSome_iff_exists.mp h
    simp [to_jsonable, hp]
  · intro fuel seen o ft asm f hho hmem
    constructor
    · show convFStep heap (convF heap fuel) seen (.ref o) = _
      have hself : convF heap fuel (o :: seen) (.ref o) = some (.null, o :: seen) :=
        convF_mem_null heap fuel (o :: seen) o (by simp)
      simp [convFStep, hmem, ← List.get?_eq_getElem?, hho, stepEntries, hself,
        updateEntries, dictUpd]
    · exact lookup_dictUpd_self (reservedEntries ft asm) f Json.null

/-- C8 witness: the direct self-cycle. -/
theorem C8_witness :
    (to_jsonable [HeapObj.node "T" "A" [("self", Val.ref 0)]] (.ref 0)).isSome = true
  ∧ convF [HeapObj.node "T" "A" [("self", Val.ref 0)]] 1 [] (.ref 0)
      = some (.obj (updateEntries (reservedEntries "T" "A") [("self", Json.null)]), [0]) := by
  refine ⟨(C8_cycle_safe [HeapObj.node "T" "A" [("self", Val.ref 0)]]).1 (.ref 0), ?_⟩
  exact ((C8_cycle_safe [HeapObj.node "T" "A" [("self", Val.ref 0)]]).2.2 0 [] 0 "T" "A" "self"
    rfl (by simp)).1

/-! ## C10: the visited set persists, so sharing also projects to null -/

/-- C10 (implicit): the projector's visited set is never cleared or shrunk
— any successful projection leaves the incoming visited set as a suffix of
the outgoing one — so an object reference is expanded at most once: after
any successful visit of a reference, projecting the same reference again
yields `null`, whether or not the second occurrence closes a true cycle. -/
theorem C10_visited_persistence :
    ∀ heap : List HeapObj,
      (∀ (fuel : ℕ) (seen : List ℕ) (v : Val) (j : Json) (s' : List ℕ),
         convF heap fuel seen v = some (j, s') → seen <:+ s')
    ∧ (∀ (fuel1 fuel2 : ℕ) (seen : List ℕ) (o : ℕ) (j : Json) (s1 : List ℕ),
         convF heap fuel1 seen (.ref o) = some (j, s1) →
         convF heap fuel2 s1 (.ref o) = some (.null, s1)) := by
  intro heap
  refine ⟨convF_suffix heap, ?_⟩
  intro fuel1 fuel2 seen o j s1 h
  exact convF_mem_null heap fuel2 s1 o (convF_ref_mem heap fuel1 seen o j s1 h)

/-- C10 witness: a shared (acyclic) reference projects to `null` on its
second occurrence. -/
theorem C10_witness :
    convF [HeapObj.node "T" "A" []] 1 [0] (.ref 0) = some (.null, [0]) := by
  have h1 : convF [HeapObj.node "T" "A" []] 1 [] (.ref 0)
      = some (.obj (reservedEntries "T" "A"), [0]) := rfl
  exact (C10_visited_persistence [HeapObj.node "T" "A" []]).2 1 1 [] 0
    (.obj (reservedEntries "T" "A")) [0] h1

/-! ## C3: the JSON shape of a capture node -/

/-- C3 counterexample: a captured field literally named
`$original_dotnet_type` is NOT overwritten by the identity — the field's
projected value overwrites the identity entry instead (`d.update(py)` lets
`py` win), so the emitted value for the reserved key is the field's value
`"x"`, not the identity `"T"`. -/
theorem C3_counterexample :
    to_jsonable [HeapObj.node "T" "A" [("$original_dotnet_type", Val.str "x")]] (.ref 0)
      = some (.obj [("$original_dotnet_type", Json.str "x"), ("$original_assembly", Json.str "A")])
  ∧ List.lookup "$original_dotnet_type"
      [("$original_dotnet_type", Json.str "x"), ("$original_assembly", Json.str "A")]
      = some (Json.str "x")
  ∧ Json.str "x" ≠ Json.str "T" := by
  refine ⟨rfl, rfl, ?_⟩
  intro h
  rw [Json.str.injEq] at h
  exact absurd h (by decide)

/-- C3 (amended): the projection of a capture node is an object whose
reserved keys `$original_dotnet_type` / `$original_assembly` carry the
captured identity strings whenever no captured field shadows them, plus one
entry per captured field in order; and for every scalar-valued captured
field — including one literally named like a reserved key — the emitted
value for that field's key is the field's projected value (the identity is
the part that gets overwritten on a collision, not the field). -/
theorem C3_amended :
    ∀ (heap : List HeapObj) (fuel : ℕ) (seen : List ℕ) (o : ℕ) (ft asm : String)
      (data : List (String × Val)),
      heap.get? o = some (.node ft asm data) → o ∉ seen →
      (data.map Prod.fst).Nodup → unseenCount heap (o :: seen) < fuel →
      ∃ es s1, convF heap (fuel + 1) seen (.ref o) = some (.obj es, s1)
        ∧ ("$original_dotnet_type" ∉ data.map Prod.fst →
           "$original_assembly" ∉ data.map Prod.fst →
             es.map Prod.fst
               = "$original_dotnet_type" :: "$original_assembly" :: data.map Prod.fst)
        ∧ ("$original_dotnet_type" ∉ data.map Prod.fst →
             List.lookup "$original_dotnet_type" es = some (Json.str ft))
        ∧ ("$original_assembly" ∉ data.map Prod.fst →
             List.lookup "$original_assembly" es = some (Json.str asm))
        ∧ (∀ (k : String) (v : Val) (j : Json), (k, v) ∈ data → scalarJson v = some j →
             List.lookup k es = some j) := by
  intro heap fuel seen o ft asm data hho hmem hnd hfuel
  have hgo_suffix := convF_suffix heap fuel
  have hgo_some : ∀ s v, unseenCount heap s < fuel → (convF heap fuel s v).isSome = true :=
    fun s v hs => convF_isSome heap fuel s v hs
  obtain ⟨p, hpy⟩ := Option.isSome_iff_exists.mp
    (stepEntries_isSome hgo_suffix hgo_some data (o :: seen) hfuel)
  obtain ⟨py, s1⟩ := p
  have hkeys : py.map Prod.fst = data.map Prod.fst := stepEntries_keys data (o :: seen) py s1 hpy
  have hpynd : (py.map Prod.fst).Nodup := by rw [hkeys]; exact hnd
  have hupd : updateEntries ([] : List (String × Json)) py = py := updateEntries_nil_of_nodup hpynd
  have hconv : convF heap (fuel + 1) seen (.ref o)
      = some (.obj (updateEntries (reservedEntries ft asm) py), s1) := by
    show convFStep heap (convF heap fuel) seen (.ref o) = _
    simp [convFStep, hmem, ← List.get?_eq_getElem?, hho, hpy, hupd]
  refine ⟨updateEntries (reservedEntries ft asm) py, s1, hconv, ?_, ?_, ?_, ?_⟩
  · intro h1 h2
    have hdisj : ∀ k ∈ py.map Prod.fst, List.lookup k (reservedEntries ft asm) = Option.none := by
      intro k hk
      rw [hkeys] at hk
      have hk1 : k ≠ "$original_dotnet_type" := fun he => h1 (he ▸ hk)
      have hk2 : k ≠ "$original_assembly" := fun he => h2 (he ▸ hk)
      simp only [reservedEntries]
      rw [lookup_cons_ne _ _ hk1, lookup_cons_ne _ _ hk2]
      rfl
    rw [updateEntries_of_disjoint hdisj hpynd]
    simp [reservedEntries, hkeys]
  · intro h1
    rw [lookup_updateEntries_of_not_mem (hkeys ▸ h1)]
    exact lookup_cons_self _ _ _
  · intro h2
    rw [lookup_updateEntries_of_not_mem (hkeys ▸ h2)]
    simp only [reservedEntries]
    rw [lookup_cons_ne _ _ (by decide)]
    exact lookup_cons_self _ _ _
  · intro k v j hkv hj
    have hscal : ∀ s v j, scalarJson v = some j → convF heap fuel s v = some (j, s) :=
      fun s v j hh => convF_scalar heap fuel s v j hh
    have hmemjs : (k, j) ∈ py := stepEntries_scalar_at hscal data (o :: seen) py s1 hpy k v j hkv hj
    exact lookup_updateEntries_mem_nodup hpynd hmemjs

/-- C3 witness: a concrete capture node with one scalar field. -/
theorem C3_witness :
    ∃ es s1, convF [HeapObj.node "T" "A" [("hp", Val.int 5)]] 2 [] (.ref 0) = some (.obj es, s1)
      ∧ List.lookup "$original_dotnet_type" es = some (Json.str "T")
      ∧ List.lookup "$original_assembly" es = some (Json.str "A")
      ∧ List.lookup "hp" es = some (Json.int 5) := by
  obtain ⟨es, s1, hc, -, h1, h2, h3⟩ :=
    C3_amended [HeapObj.node "T" "A" [("hp", Val.int 5)]] 1 [] 0 "T" "A" [("hp", Val.int 5)]
      rfl (by simp) (by simp) (by decide)
  exact ⟨es, s1, hc, h1 (by decide), h2 (by decide),
    h3 "hp" (Val.int 5) (Json.int 5) (by simp) rfl⟩

/-! ## C2: the path parser -/

/-- C2 counterexample: `parse("[0]")` does not fail with a path-syntax
error — the bracket alternative of `_path_token` is unanchored, so a path
may begin with an index step. -/
theorem C2_counterexample : parse_path "[0]" = Except.ok [Tok.idx 0] := rfl

/-- C2 (amended): `parse("a.b[2].c")` yields exactly
`[Field a, Field b, Index 2, Field c]` in order, and `parse("a..b")` fails
with a path-syntax error reporting the unparsed remainder `..b`; but
`parse("[0]")` succeeds with `[Index 0]`, because only the bare-identifier
alternative of the token regex carries the `^` anchor. -/
theorem C2_amended :
    parse_path "a.b[2].c" = Except.ok [Tok.key "a", Tok.key "b", Tok.idx 2, Tok.key "c"]
  ∧ parse_path "a..b" = Except.error "..b"
  ∧ parse_path "[0]" = Except.ok [Tok.idx 0] :=
  ⟨rfl, rfl, rfl⟩

/-! ## C1: the write-only-existing-slot policy -/

/-- C1 counterexample: an assignment whose terminal step names a key absent
from the target mapping succeeds by creating that key — `Data["foo"] = v`
inserts into the capture node's dictionary. -/
theorem C1_counterexample :
    set_value [HeapObj.node "T" "A" [("coins", Val.int 1)]] (.ref 0) "foo" "1"
      = ([HeapObj.node "T" "A" [("coins", Val.int 1), ("foo", Val.int 1)]], Option.none)
  ∧ List.lookup "foo" [("coins", Val.int 1)] = Option.none := by
  exact ⟨by decide, rfl⟩

/-- C1 (amended): the assignment operation never extends any sequence — a
successful assignment preserves the length of every list in the graph —
but it does not enforce write-only-existing-slot on mappings: an
assignment whose terminal step names a key absent from the target capture
node's field map succeeds and appends that key. -/
theorem C1_amended :
    (∀ (heap : List HeapObj) (root : Val) (p lit : String) (heap' : List HeapObj),
       set_value heap root p lit = (heap', Option.none) →
       ∀ (o : ℕ) (l : List Val), heap.get? o = some (.list l) →
         ∃ l', heap'.get? o = some (.list l') ∧ l'.length = l.length)
  ∧ (∀ (heap : List HeapObj) (o : ℕ) (ft asm : String) (data : List (String × Val))
       (k p lit : String),
       parse_path p = Except.ok [Tok.key k] →
       heap.get? o = some (.node ft asm data) →
       List.lookup k data = Option.none →
       set_value heap (.ref o) p lit
         = (heap.set o (.node ft asm
             (data ++ [(k, valOfNet (_to_net (parse_value_literal lit)))])), Option.none)) := by
  constructor
  · intro heap root p lit heap' hsv o l hl
    unfold set_value at hsv
    cases hp : parse_path p with
    | error rem =>
        rw [hp] at hsv
        dsimp only at hsv
        exact absurd (congrArg Prod.snd hsv) (by simp)
    | ok tokens =>
        rw [hp] at hsv
        dsimp only at hsv
        cases htr : traverse_for_set heap root tokens with
        | mk parent lastTok cur =>
            rw [htr] at hsv
            dsimp only at hsv
            cases lastTok with
            | none => exact absurd (congrArg Prod.snd hsv) (by simp)
            | some tk =>
                dsimp only at hsv
                by_cases hpar : parent = .null
                · rw [if_pos hpar] at hsv
                  exact absurd (congrArg Prod.snd hsv) (by simp)
                · rw [if_neg hpar] at hsv
                  exact assignAtSlot_ok_list_len heap parent tk p _ heap' hsv o l hl
  · intro heap o ft asm data k p lit hp hho hlk
    have hgd : get_node_data_if_any heap (.ref o) = some data := by
      simp only [get_node_data_if_any]
      rw [hho]
    have hdg : dict_get data k = .null := by simp [dict_get, hlk]
    have htr : traverse_for_set heap (.ref o) [Tok.key k] = ⟨.ref o, some (.key k), .null⟩ := by
      show traverseLoop heap (.ref o) .null Option.none [Tok.key k] = _
      simp only [traverseLoop, hgd, hdg]
    unfold set_value
    rw [hp]
    dsimp only
    rw [htr]
    dsimp only
    rw [if_neg (by simp)]
    unfold assignAtSlot
    dsimp only
    rw [hho]
    dsimp only
    rw [dictUpd_of_lookup_none _ hlk]

/-- C1 witness: creating the missing key `hp` on a capture node, and a
length-preserving successful list store. -/
theorem C1_witness :
    set_value [HeapObj.node "T" "A" []] (.ref 0) "hp" "2"
      = ([HeapObj.node "T" "A" [("hp", Val.int 2)]], Option.none)
  ∧ ∃ l', ([HeapObj.list [Val.int 7, Val.int 2]] : List HeapObj).get? 0 = some (.list l')
      ∧ l'.length = 2 := by
  constructor
  · have h := C1_amended.2 [HeapObj.node "T" "A" []] 0 "T" "A" [] "hp" "hp" "2" rfl rfl rfl
    exact h.trans (by decide)
  · have hsv : set_value [HeapObj.list [Val.int 1, Val.int 2]] (.ref 0) "[0]" "7"
        = ([HeapObj.list [Val.int 7, Val.int 2]], Option.none) := by decide
    exact C1_amended.1 [HeapObj.list [Val.int 1, Val.int 2]] (.ref 0) "[0]" "7"
      [HeapObj.list [Val.int 7, Val.int 2]] hsv 0 [Val.int 1, Val.int 2] rfl

/-! ## C4: failures of non-addressing paths -/

/-- C4 counterexample: the spec's own example — `paths[99]` on a sequence
of length 5 — fails with the index assignment `TypeError`, which names only
the offending index, not with a path-resolution error naming the full path
string `paths[99].x`. -/
theorem C4_counterexample :
    set_value [HeapObj.node "T" "A" [("paths", Val.ref 1)],
               HeapObj.list [Val.int 0, Val.int 0, Val.int 0, Val.int 0, Val.int 0]]
        (.ref 0) "paths[99].x" "1"
      = ([HeapObj.node "T" "A" [("paths", Val.ref 1)],
          HeapObj.list [Val.int 0, Val.int 0, Val.int 0, Val.int 0, Val.int 0]],
         some (.cannotAssignIndex 99))
  ∧ SetErr.cannotAssignIndex 99 ≠ SetErr.couldNotResolve "paths[99].x" := by
  exact ⟨by decide, by decide⟩

/-- C4 (amended): a failed assignment never mutates any part of the graph,
and a missing field at a non-terminal step does fail with the
path-resolution error naming the full path string; but an out-of-range
index fails with an assignment `TypeError` naming only the index (and a
missing field at the terminal step does not fail at all, per C1). -/
theorem C4_amended :
    (∀ (heap : List HeapObj) (root : Val) (p lit : String) (heap' : List HeapObj) (e : SetErr),
       set_value heap root p lit = (heap', some e) → heap' = heap)
  ∧ (∀ (ft asm : String) (rest : List (String × Val)) (l : List Val) (lit : String),
       l.length ≤ 99 →
       set_value [.node ft asm (("paths", .ref 1) :: rest), .list l] (.ref 0) "paths[99].x" lit
         = ([.node ft asm (("paths", .ref 1) :: rest), .list l], some (.cannotAssignIndex 99)))
  ∧ (∀ (heap : List HeapObj) (o : ℕ) (ft asm : String) (data : List (String × Val))
       (p k1 k2 lit : String),
       parse_path p = Except.ok [Tok.key k1, Tok.key k2] →
       heap.get? o = some (.node ft asm data) →
       List.lookup k1 data = Option.none →
       set_value heap (.ref o) p lit = (heap, some (.couldNotResolve p))) := by
  refine ⟨?_, ?_, ?_⟩
  · intro heap root p lit heap' e hsv
    unfold set_value at hsv
    cases hp : parse_path p with
    | error rem =>
        rw [hp] at hsv
        dsimp only at hsv
        exact (congrArg Prod.fst hsv).symm
    | ok tokens =>
        rw [hp] at hsv
        dsimp only at hsv
        cases htr : traverse_for_set heap root tokens with
        | mk parent lastTok cur =>
            rw [htr] at hsv
            dsimp only at hsv
            cases lastTok with
            | none => exact (congrArg Prod.fst hsv).symm
            | some tk =>
                dsimp only at hsv
                by_cases hpar : parent = .null
                · rw [if_pos hpar] at hsv
                  exact (congrArg Prod.fst hsv).symm
                · rw [if_neg hpar] at hsv
                  have h2 : (assignAtSlot heap parent tk p
                      (valOfNet (_to_net (parse_value_literal lit)))).2 = some e :=
                    congrArg Prod.snd hsv
                  have h1 := assignAtSlot_err_unchanged heap parent tk p
                    (valOfNet (_to_net (parse_value_literal lit))) e h2
                  exact (congrArg Prod.fst hsv).symm.trans h1
  · intro ft asm rest l lit hlen
    have h99 : l.get? 99 = Option.none := List.get?_eq_none.mpr (by omega)
    have hh0 : ([HeapObj.node ft asm (("paths", Val.ref 1) :: rest),
        HeapObj.list l] : List HeapObj).get? 0
        = some (.node ft asm (("paths", .ref 1) :: rest)) := rfl
    have hh1 : ([HeapObj.node ft asm (("paths", Val.ref 1) :: rest),
        HeapObj.list l] : List HeapObj).get? 1 = some (.list l) := rfl
    have hdg : dict_get (("paths", Val.ref 1) :: rest) "paths" = .ref 1 := by
      simp [dict_get, List.lookup]
    have htr : traverse_for_set [HeapObj.node ft asm (("paths", Val.ref 1) :: rest),
        HeapObj.list l] (.ref 0) [Tok.key "paths", Tok.idx 99, Tok.key "x"]
        = ⟨.ref 1, some (.idx 99), .null⟩ := by
      show traverseLoop _ (.ref 0) .null Option.none _ = _
      simp only [traverseLoop, get_node_data_if_any, hh0, hh1, hdg, h99]
    unfold set_value
    rw [show parse_path "paths[99].x"
        = Except.ok [Tok.key "paths", Tok.idx 99, Tok.key "x"] from rfl]
    dsimp only
    rw [htr]
    dsimp only
    rw [if_neg (by simp)]
    unfold assignAtSlot
    dsimp only
    rw [hh1]
    dsimp only
    rw [if_neg (by omega)]
  · intro heap o ft asm data p k1 k2 lit hp hho hlk
    have hgd : get_node_data_if_any heap (.ref o) = some data := by
      simp only [get_node_data_if_any]
      rw [hho]
    have hdg : dict_get data k1 = .null := by simp [dict_get, hlk]
    have htr : traverse_for_set heap (.ref o) [Tok.key k1, Tok.key k2]
        = ⟨.null, some (.key k2), .null⟩ := by
      show traverseLoop heap (.ref o) .null Option.none _ = _
      conv_lhs => rw [traverseLoop]
      rw [hgd]
      dsimp only
      rw [hdg]
      rfl
    unfold set_value
    rw [hp]
    dsimp only
    rw [htr]
    dsimp only
    rw [if_pos rfl]

/-- C4 witness: a concrete out-of-range index failure (unchanged heap,
index-naming error) and a concrete non-terminal missing field (resolution
error naming the path). -/
theorem C4_witness :
    set_value [HeapObj.node "N" "B" [("paths", Val.ref 1)],
               HeapObj.list [Val.int 9, Val.int 9]] (.ref 0) "paths[99].x" "1"
      = ([HeapObj.node "N" "B" [("paths", Val.ref 1)], HeapObj.list [Val.int 9, Val.int 9]],
         some (.cannotAssignIndex 99))
  ∧ set_value [HeapObj.node "T" "A" []] (.ref 0) "x.y" "1"
      = ([HeapObj.node "T" "A" []], some (.couldNotResolve "x.y")) := by
  constructor
  · exact C4_amended.2.1 "N" "B" [] [Val.int 9, Val.int 9] "1" (by decide)
  · exact C4_amended.2.2 [HeapObj.node "T" "A" []] 0 "T" "A" [] "x.y" "x" "y" "1" rfl rfl rfl

end KatEdit
